import Mathlib

/-!
Shallow embedding of the `spectrs` spectrogram library.

Floating-point (`f32`) arithmetic of the Rust source is modelled over the
real numbers `ℝ`; `usize` arithmetic is modelled over `ℕ`, where Rust's
`saturating_sub` coincides with truncated subtraction.  `Vec<Vec<f32>>`
matrices become `List (List ℝ)`.  The forward FFT of size `n` performed by
`rustfft` is modelled by the discrete Fourier transform it computes:
`X[k] = Σ_{j<n} x[j] · exp(-2πi·j·k/n)`.
-/

namespace Spectrs

/-- Rust enum `SpectrogramType` from `src/stft/stft.rs`: magnitude or power spectrogram. -/
inductive SpectrogramType where
  | Magnitude : SpectrogramType
  | Power : SpectrogramType

/-- Rust enum `MelScale` from `src/spectrogram/mel.rs`: the two Hz↔mel formula families. -/
inductive MelScale where
  | HTK : MelScale
  | Slaney : MelScale

/-- Function `create_hann_window` from `src/stft/stft.rs`:
`(0..length).map(|i| 0.5 * (1.0 - (2.0 * PI * i as f32 / (length - 1) as f32).cos()))`.
The `usize` difference `length - 1` is truncated subtraction, as in the source. -/
noncomputable def create_hann_window (length : ℕ) : List ℝ :=
  (List.range length).map (fun (i : ℕ) => 0.5 * (1 - Real.cos (2 * Real.pi * (i : ℝ) / ((length - 1 : ℕ) : ℝ))))

/-- The per-entry transform chosen from `spectrogram_type` in
`par_compute_spectrogram`: `c.norm()` for `Magnitude`, `c.norm_sqr()` for `Power`. -/
noncomputable def transform_fn : SpectrogramType → ℂ → ℝ
  | SpectrogramType.Magnitude => fun c => Complex.abs c
  | SpectrogramType.Power => fun c => Complex.normSq c

/-- Source line `let n_frames = (audio.len().saturating_sub(win_length)) / hop_length + 1;`
(`src/stft/stft.rs`, line 54).  `ℕ` subtraction is saturating, matching
`saturating_sub`. -/
def n_frames (audio_len win_length hop_length : ℕ) : ℕ :=
  (audio_len - win_length) / hop_length + 1

/-- Source line `let n_freq_bins = n_samples / 2 + 1;` (`src/stft/stft.rs`, line 57). -/
def n_freq_bins (n_samples : ℕ) : ℕ :=
  n_samples / 2 + 1

/-- The complex transform buffer of one frame, just before `fft.process`:
entry `m` of the length-`n_samples` buffer.  The buffer is zero-initialised;
the windowed samples `src[i] * win[i]` for `i < end - start` are written at
positions `centering_offset + i` (the `zip` over `frame.iter_mut().skip(...)`
truncates at the shorter sequence, so positions past `n_samples` are dropped
silently).  The centering offset `(n_samples - win_length) / 2` is `usize`
arithmetic: for `win_length > n_samples` it underflows in Rust (a panic in
debug builds), modelled here by truncated subtraction; claims that exercise
`win_length > n_fft` use `center = false`, where the offset is `0`. -/
noncomputable def frame_val (audio : List ℝ) (n_samples hop_length win_length : ℕ)
    (center : Bool) (frame_idx m : ℕ) : ℂ :=
  let start := frame_idx * hop_length
  let stop := min (start + win_length) audio.length
  let offset := if center then (n_samples - win_length) / 2 else 0
  if offset ≤ m ∧ m - offset < stop - start then
    Complex.ofReal (audio.getD (start + (m - offset)) 0 *
      (create_hann_window win_length).getD (m - offset) 0)
  else 0

/-- The DFT value `X[k]` of the frame buffer after `fft.process(&mut frame)`:
`X[k] = Σ_{j < n_samples} frame[j] · exp(-2πi·j·k/n_samples)`. -/
noncomputable def frame_dft (audio : List ℝ) (n_samples hop_length win_length : ℕ)
    (center : Bool) (frame_idx k : ℕ) : ℂ :=
  ∑ j ∈ Finset.range n_samples,
    frame_val audio n_samples hop_length win_length center frame_idx j *
      Complex.exp (-(2 * Real.pi * Complex.I * (j : ℝ) * (k : ℝ)) / (n_samples : ℝ))

/-- The non-guard body of one iteration of the parallel loop in
`par_compute_spectrogram`: the row `out_row` written for frame `frame_idx`,
i.e. `out_row[k] = transform_fn(frame[k])` for the first `n_freq_bins` DFT bins. -/
noncomputable def spectro_row_body (audio : List ℝ) (n_samples hop_length win_length : ℕ)
    (center : Bool) (ty : SpectrogramType) (frame_idx : ℕ) : List ℝ :=
  (List.range (n_freq_bins n_samples)).map
    (fun k => transform_fn ty (frame_dft audio n_samples hop_length win_length center frame_idx k))

/-- One row of the frame-major intermediate matrix of `par_compute_spectrogram`:
the row stays zero when the guard `start > audio.len()` fires (the closure
`return`s early), and otherwise holds the transformed DFT bins. -/
noncomputable def spectro_row (audio : List ℝ) (n_samples hop_length win_length : ℕ)
    (center : Bool) (ty : SpectrogramType) (frame_idx : ℕ) : List ℝ :=
  if frame_idx * hop_length > audio.length then
    List.replicate (n_freq_bins n_samples) 0
  else
    spectro_row_body audio n_samples hop_length win_length center ty frame_idx

/-- Function `par_compute_spectrogram` from `src/stft/stft.rs`: the frame-major matrix
(one `spectro_row` per frame index) transposed into the freq-major layout
`spectrogram[f][t] = transposed_spectrogram[t][f]`. -/
noncomputable def par_compute_spectrogram (audio : List ℝ) (n_samples hop_length win_length : ℕ)
    (center : Bool) (ty : SpectrogramType) : List (List ℝ) :=
  (List.range (n_freq_bins n_samples)).map (fun f =>
    (List.range (n_frames audio.length win_length hop_length)).map (fun t =>
      (spectro_row audio n_samples hop_length win_length center ty t).getD f 0))

/-- Function `hz_to_mel` from `src/spectrogram/mel.rs`.
HTK: `2595.0 * (1.0 + hz / 700.0).log10()`;
Slaney: `3.0 * hz / 200.0` below 1000 Hz, else `15.0 + 27.0 * (hz / 1000.0).log(6.4)`. -/
noncomputable def hz_to_mel (hz : ℝ) : MelScale → ℝ
  | MelScale.HTK => 2595 * Real.logb 10 (1 + hz / 700)
  | MelScale.Slaney =>
      if hz < 1000 then 3 * hz / 200 else 15 + 27 * Real.logb 6.4 (hz / 1000)

/-- Function `mel_to_hz` from `src/spectrogram/mel.rs`.
HTK: `700.0 * (10.0f32.powf(mel / 2595.0) - 1.0)`;
Slaney: `200.0 * mel / 3.0` below mel 15, else `6.4f32.powf((mel - 15.0) / 27.0) * 1000.0`. -/
noncomputable def mel_to_hz (mel : ℝ) : MelScale → ℝ
  | MelScale.HTK => 700 * ((10 : ℝ) ^ (mel / 2595) - 1)
  | MelScale.Slaney =>
      if mel < 15 then 200 * mel / 3 else (6.4 : ℝ) ^ ((mel - 15) / 27) * 1000

/-- Function `create_mel_frequencies` from `src/spectrogram/mel.rs`: `n_mels` points
linearly spaced in mel domain between `hz_to_mel f_min` and `hz_to_mel f_max`,
mapped back to Hz.  The Rust iterator `(0..=n_mels - 1)` is `List.range n_mels`
(the claims only use `n_mels ≥ 2`, where the `usize` subtraction is exact). -/
noncomputable def create_mel_frequencies (f_min f_max : ℝ) (n_mels : ℕ) (s : MelScale) : List ℝ :=
  (List.range n_mels).map (fun (i : ℕ) =>
    mel_to_hz (hz_to_mel f_min s +
      (hz_to_mel f_max s - hz_to_mel f_min s) * (i : ℝ) / ((n_mels - 1 : ℕ) : ℝ)) s)

/-- Function `create_mel_filter_bank` from `src/spectrogram/mel.rs`, step by step:
defaults `f_min = 0`, `f_max = sr / 2`; `fft_freqs[i] = i · sr / n_fft` for
`i ≤ n_fft/2`; `mel_freqs` of `n_mels + 2` points; `mel_freqs_diffs = diff`;
`ramps[i][j] = mel_freqs[i] - fft_freqs[j]`; the triangular weights
`max(0, min(-ramps[i][j]/diff[i], ramps[i+2][j]/diff[i+1]))`; and the final
in-place scaling of row `i` by `enorm[i] = 2 / (mel_freqs[i+2] - mel_freqs[i])`,
applied for every `mel_scale`. -/
noncomputable def create_mel_filter_bank (sr : ℕ) (n_fft n_mels : ℕ)
    (f_min f_max : Option ℝ) (s : MelScale) : List (List ℝ) :=
  let fmin := f_min.getD 0
  let fmax := f_max.getD ((sr : ℝ) / 2)
  let fft_freqs : List ℝ := (List.range (n_fft / 2 + 1)).map (fun (i : ℕ) => (i : ℝ) * (sr : ℝ) / (n_fft : ℝ))
  let mel_freqs : List ℝ := create_mel_frequencies fmin fmax (n_mels + 2) s
  let mel_freqs_diffs : List ℝ := List.zipWith (fun a b => b - a) mel_freqs mel_freqs.tail
  let ramps : List (List ℝ) := mel_freqs.map (fun mf => fft_freqs.map (fun ff => mf - ff))
  let weights : List (List ℝ) := (List.range n_mels).map (fun i =>
    let lower := (ramps.getD i []).map (fun r => -r / mel_freqs_diffs.getD i 0)
    let upper := (ramps.getD (i + 2) []).map (fun r => r / mel_freqs_diffs.getD (i + 1) 0)
    List.zipWith (fun l u => max 0 (min l u)) lower upper)
  let enorm : List ℝ := (List.range n_mels).map (fun i =>
    2 / (mel_freqs.getD (i + 2) 0 - mel_freqs.getD i 0))
  (List.range n_mels).map (fun i => (weights.getD i []).map (fun w => w * enorm.getD i 0))

/-- Function `convert_to_mel` from `src/spectrogram/mel.rs`.  The Rust function
unconditionally evaluates `spectrogram[0].len()` and, per time index
`t < spectrogram[0].len()`, reads `freq_bin[t]` from every row zipped with a
filter row (filter rows have length `1 + n_fft/2`).  Index panics are modelled
by `none`: an empty `spectrogram` (the `spectrogram[0]` panic), or a zipped row
shorter than row 0 when some access actually happens (`n_mels ≠ 0` and row 0
nonempty).  Otherwise the result is
`mel_spec[i][t] = Σ (row, w) ∈ zip(spectrogram, filter_i), row[t] · w`. -/
noncomputable def convert_to_mel (spectrogram : List (List ℝ)) (sr n_fft n_mels : ℕ)
    (f_min f_max : Option ℝ) (s : MelScale) : Option (List (List ℝ)) :=
  match spectrogram.head? with
  | none => none
  | some row0 =>
    let mel_filters := create_mel_filter_bank sr n_fft n_mels f_min f_max s
    if n_mels ≠ 0 ∧ 0 < row0.length ∧
        ¬ (∀ row ∈ spectrogram.take (1 + n_fft / 2), row0.length ≤ row.length) then
      none
    else
      some (mel_filters.map (fun filt =>
        (List.range row0.length).map (fun t =>
          ((spectrogram.zip filt).map (fun p => p.1.getD t 0 * p.2)).sum)))

/-- Modelled from the spec: the sequential spectrogram variant
(`compute_spectrogram`, referenced by the repository's tests but not present
under `src/`).  Per §4.3 it runs the same per-frame algorithm with frames
processed in index order — here a left fold over frame indices, each iteration
overwriting its own row of the frame-major buffer — followed by the same
transpose. -/
noncomputable def compute_spectrogram (audio : List ℝ) (n_samples hop_length win_length : ℕ)
    (center : Bool) (ty : SpectrogramType) : List (List ℝ) :=
  let nf := n_frames audio.length win_length hop_length
  let nb := n_freq_bins n_samples
  let transposed : List (List ℝ) :=
    (List.range nf).foldl
      (fun acc t => acc.set t (spectro_row audio n_samples hop_length win_length center ty t))
      (List.replicate nf (List.replicate nb 0))
  (List.range nb).map (fun f =>
    (List.range nf).map (fun t => (transposed.getD t []).getD f 0))

/-- The `mel_freqs` let-binding of `create_mel_filter_bank` with its defaults
resolved: `create_mel_frequencies(f_min | 0, f_max | sr/2, n_mels + 2)`. -/
noncomputable def bank_mel_freqs (sr : ℕ) (n_mels : ℕ) (f_min f_max : Option ℝ)
    (s : MelScale) : List ℝ :=
  create_mel_frequencies (f_min.getD 0) (f_max.getD ((sr : ℝ) / 2)) (n_mels + 2) s

/-- Entry `j` of the `fft_freqs` vector of `create_mel_filter_bank`:
`j · sr / n_fft`. -/
noncomputable def fft_freq (sr n_fft j : ℕ) : ℝ :=
  (j : ℝ) * (sr : ℝ) / (n_fft : ℝ)

/-! ### Helper lemmas -/

theorem getD_range_map {α : Type*} (f : ℕ → α) (n i : ℕ) (d : α) (h : i < n) :
    ((List.range n).map f).getD i d = f i := by
  rw [List.getD_eq_getElem?_getD, List.getElem?_map, List.getElem?_range h]
  rfl

/-! ### C6: the Hann window -/

/-- C6: for every `win_length ≥ 2`, `create_hann_window` produces a list of
exactly `win_length` weights whose `i`-th entry is
`0.5 * (1 - cos(2π·i/(win_length-1)))` for every `i < win_length`; it is a pure
function of `win_length` alone. -/
theorem hann_window_spec (L i : ℕ) (hL : 2 ≤ L) (hi : i < L) :
    (create_hann_window L).length = L ∧
    (create_hann_window L).getD i 0 =
      0.5 * (1 - Real.cos (2 * Real.pi * (i : ℝ) / ((L : ℝ) - 1))) := by
  constructor
  · simp [create_hann_window]
  · rw [create_hann_window, getD_range_map _ _ _ _ hi]
    have h1 : (1 : ℕ) ≤ L := le_trans one_le_two hL
    have : ((L - 1 : ℕ) : ℝ) = (L : ℝ) - 1 := by
      push_cast [Nat.cast_sub h1]
      ring
    rw [this]

/-- Witness for C6 at `win_length = 4`, `i = 1`. -/
theorem hann_window_spec_witness :
    (create_hann_window 4).length = 4 ∧
    (create_hann_window 4).getD 1 0 =
      0.5 * (1 - Real.cos (2 * Real.pi * (1 : ℝ) / ((4 : ℝ) - 1))) := by
  have h := hann_window_spec 4 1 (by norm_num) (by norm_num)
  simpa using h

/-! ### C9: the early-return guard in the parallel loop is unreachable -/

/-- C9: for `hop_length ≥ 1` and every frame index `k < n_frames`, the frame
start `k * hop_length` never exceeds the signal length, so the guard
`start > audio.len()` never fires: every row of the frame-major buffer is
written by the per-frame computation (`spectro_row` equals its non-guard body). -/
theorem frame_guard_unreachable (audio : List ℝ) (n_samples hop_length win_length : ℕ)
    (center : Bool) (ty : SpectrogramType) (k : ℕ) (hH : 1 ≤ hop_length)
    (hk : k < n_frames audio.length win_length hop_length) :
    k * hop_length ≤ audio.length ∧
    spectro_row audio n_samples hop_length win_length center ty k =
      spectro_row_body audio n_samples hop_length win_length center ty k := by
  have hk' : k ≤ (audio.length - win_length) / hop_length := Nat.lt_succ_iff.mp hk
  have h1 : k * hop_length ≤ (audio.length - win_length) / hop_length * hop_length :=
    Nat.mul_le_mul_right _ hk'
  have h2 : (audio.length - win_length) / hop_length * hop_length ≤ audio.length - win_length :=
    Nat.div_mul_le_self _ _
  have h3 : k * hop_length ≤ audio.length :=
    le_trans (le_trans h1 h2) (Nat.sub_le _ _)
  exact ⟨h3, by rw [spectro_row, if_neg (not_lt.mpr h3)]⟩

/-- Witness for C9 at a length-10 signal, `hop_length = 2`, `win_length = 4`,
frame index `3` (the last frame: `n_frames = 4`). -/
theorem frame_guard_unreachable_witness :
    3 * 2 ≤ (List.replicate 10 (0 : ℝ)).length ∧
    spectro_row (List.replicate 10 (0 : ℝ)) 8 2 4 false SpectrogramType.Magnitude 3 =
      spectro_row_body (List.replicate 10 (0 : ℝ)) 8 2 4 false SpectrogramType.Magnitude 3 :=
  frame_guard_unreachable (List.replicate 10 (0 : ℝ)) 8 2 4 false SpectrogramType.Magnitude 3
    (by norm_num)
    (by simp only [List.length_replicate, n_frames]; norm_num)

/-! ### C5: mel↔Hz round trip -/

/-- C5: for both mel scales, `mel_to_hz` inverts `hz_to_mel` exactly (in the
real-valued model) on every frequency `f ≥ 0` — in particular the round trip
recovers `f` within any relative tolerance at the test frequencies — and the
two Slaney branches agree at the 1000 Hz / mel-15 breakpoint. -/
theorem mel_round_trip (s : MelScale) (f : ℝ) (hf : 0 ≤ f) :
    mel_to_hz (hz_to_mel f s) s = f ∧
    hz_to_mel 1000 MelScale.Slaney = 15 ∧ mel_to_hz 15 MelScale.Slaney = 1000 := by
  refine ⟨?_, ?_, ?_⟩
  · cases s with
    | HTK =>
        have hd : (0 : ℝ) ≤ f / 700 := div_nonneg hf (by norm_num)
        have hx : (0 : ℝ) < 1 + f / 700 := by linarith
        simp only [hz_to_mel, mel_to_hz]
        rw [mul_div_cancel_left₀ _ (by norm_num : (2595 : ℝ) ≠ 0),
          Real.rpow_logb (by norm_num) (by norm_num) hx]
        ring
    | Slaney =>
        by_cases hlt : f < 1000
        · have h15 : 3 * f / 200 < 15 := by linarith
          simp only [hz_to_mel, mel_to_hz, if_pos hlt, if_pos h15]
          ring
        · push_neg at hlt
          have hq : (1 : ℝ) ≤ f / 1000 := by
            rw [le_div_iff₀ (by norm_num : (0 : ℝ) < 1000)]
            linarith
          have hl0 : 0 ≤ Real.logb 6.4 (f / 1000) :=
            Real.logb_nonneg (by norm_num) hq
          have hnot : ¬ (15 + 27 * Real.logb 6.4 (f / 1000) < 15) := by linarith
          simp only [hz_to_mel, mel_to_hz, if_neg (not_lt.mpr hlt), if_neg hnot]
          have harg : (15 + 27 * Real.logb 6.4 (f / 1000) - 15) / 27 =
              Real.logb 6.4 (f / 1000) := by
            field_simp
          rw [harg, Real.rpow_logb (by norm_num) (by norm_num)
            (by linarith : (0 : ℝ) < f / 1000)]
          field_simp
  · norm_num [hz_to_mel, Real.logb_one]
  · norm_num [mel_to_hz, Real.rpow_zero]

/-- Witness for C5 at `f = 500` Hz on the Slaney scale. -/
theorem mel_round_trip_witness :
    mel_to_hz (hz_to_mel 500 MelScale.Slaney) MelScale.Slaney = 500 :=
  (mel_round_trip MelScale.Slaney 500 (by norm_num)).1

/-! ### C3: the sequential variant refines the parallel one -/

theorem foldl_set_range {α : Type*} (f : ℕ → α) :
    ∀ (n : ℕ) (l : List α), n ≤ l.length →
      (List.range n).foldl (fun acc t => acc.set t (f t)) l =
        (List.range n).map f ++ l.drop n := by
  intro n
  induction n with
  | zero => intro l _; simp
  | succ n ih =>
      intro l hn
      have hn' : n ≤ l.length := Nat.le_of_succ_le hn
      rw [List.range_succ, List.foldl_append, ih l hn']
      simp only [List.foldl_cons, List.foldl_nil]
      rw [List.set_append]
      have hlen : ((List.range n).map f).length = n := by simp
      rw [hlen, if_neg (lt_irrefl n), Nat.sub_self,
        List.drop_eq_getElem_cons hn, List.set_cons_zero]
      simp

/-- C3: the sequential spectrogram (frames processed in index order by a fold)
produces output equal — entry for entry, hence bit-identical in the
real-valued model — to the parallel `par_compute_spectrogram`, for every
signal and configuration. -/
theorem seq_par_equal (audio : List ℝ) (n_samples hop_length win_length : ℕ)
    (center : Bool) (ty : SpectrogramType) :
    compute_spectrogram audio n_samples hop_length win_length center ty =
      par_compute_spectrogram audio n_samples hop_length win_length center ty := by
  have hnf : (List.range (n_frames audio.length win_length hop_length)).foldl
      (fun acc t => acc.set t (spectro_row audio n_samples hop_length win_length center ty t))
      (List.replicate (n_frames audio.length win_length hop_length)
        (List.replicate (n_freq_bins n_samples) 0)) =
      (List.range (n_frames audio.length win_length hop_length)).map
        (spectro_row audio n_samples hop_length win_length center ty) := by
    rw [foldl_set_range _ _ _ (by simp)]
    simp
  simp only [compute_spectrogram, par_compute_spectrogram]
  rw [hnf]
  apply List.map_congr_left
  intro f _
  apply List.map_congr_left
  intro t ht
  rw [getD_range_map _ _ _ _ (List.mem_range.mp ht)]

/-! ### C7: power spectrogram is the square of the magnitude spectrogram -/

/-- C7: for every signal and configuration, the `Power` spectrogram equals the
`Magnitude` spectrogram squared entrywise (exactly, in the real-valued model,
hence within any relative tolerance). -/
theorem power_eq_magnitude_sq (audio : List ℝ) (n_samples hop_length win_length : ℕ)
    (center : Bool) :
    par_compute_spectrogram audio n_samples hop_length win_length center SpectrogramType.Power =
      (par_compute_spectrogram audio n_samples hop_length win_length center
        SpectrogramType.Magnitude).map (fun row => row.map (fun x => x ^ 2)) := by
  unfold par_compute_spectrogram
  rw [List.map_map]
  apply List.map_congr_left
  intro f hf
  simp only [Function.comp, List.map_map]
  apply List.map_congr_left
  intro t _
  simp only [Function.comp]
  unfold spectro_row
  by_cases hg : t * hop_length > audio.length
  · rw [if_pos hg, if_pos hg]
    simp only [List.getD_eq_getElem?_getD, List.getElem?_replicate]
    by_cases hfb : f < n_freq_bins n_samples
    · simp [if_pos hfb]
    · simp [if_neg hfb]
  · rw [if_neg hg, if_neg hg]
    unfold spectro_row_body
    have hfb : f < n_freq_bins n_samples := List.mem_range.mp hf
    rw [getD_range_map _ _ _ _ hfb, getD_range_map _ _ _ _ hfb]
    simp [transform_fn, Complex.sq_abs]

/-! ### Shape of the output matrix -/

theorem par_compute_shape (audio : List ℝ) (n_samples hop_length win_length : ℕ)
    (center : Bool) (ty : SpectrogramType) :
    (par_compute_spectrogram audio n_samples hop_length win_length center ty).length
      = n_freq_bins n_samples ∧
    ∀ row ∈ par_compute_spectrogram audio n_samples hop_length win_length center ty,
      row.length = n_frames audio.length win_length hop_length := by
  constructor
  · simp [par_compute_spectrogram]
  · intro row hrow
    simp only [par_compute_spectrogram, List.mem_map, List.mem_range] at hrow
    obtain ⟨f, _, rfl⟩ := hrow
    simp

/-! ### C1: frame count -/

/-- Counterexample to C1 as stated: the empty signal (length `0 < win_length 2`)
yields one frame per output row, not zero frames / an empty matrix. -/
theorem c1_counterexample :
    ((par_compute_spectrogram [] 4 1 2 false SpectrogramType.Magnitude).getD 0 []).length = 1 ∧
    (1 : ℕ) ≠ 0 := by
  constructor
  · unfold par_compute_spectrogram
    rw [getD_range_map _ _ _ _ (by norm_num [n_freq_bins] : 0 < n_freq_bins 4)]
    simp [n_frames]
  · decide

/-- C1 (amended): for `hop_length ≥ 1`, `par_compute_spectrogram` returns
`n_fft/2 + 1` rows whose common length is
`n_frames = (L -ₛ W)/H + 1` (saturating subtraction): for `L ≥ W` this is
`floor((L - W)/H) + 1` — in particular exactly one frame at `L = W` — while for
`L < W` (including `L = 0`) it is `1`, a single zero-padded partial frame,
not `0`, and no error is raised. -/
theorem c1_frame_count (audio : List ℝ) (n_samples hop_length win_length : ℕ)
    (center : Bool) (ty : SpectrogramType) (hH : 1 ≤ hop_length) :
    (par_compute_spectrogram audio n_samples hop_length win_length center ty).length
      = n_freq_bins n_samples ∧
    (∀ row ∈ par_compute_spectrogram audio n_samples hop_length win_length center ty,
      row.length = n_frames audio.length win_length hop_length) ∧
    (win_length ≤ audio.length →
      n_frames audio.length win_length hop_length
        = (audio.length - win_length) / hop_length + 1) ∧
    (audio.length < win_length → n_frames audio.length win_length hop_length = 1) ∧
    (audio.length = win_length → n_frames audio.length win_length hop_length = 1) := by
  refine ⟨(par_compute_shape audio n_samples hop_length win_length center ty).1,
    (par_compute_shape audio n_samples hop_length win_length center ty).2, fun _ => rfl,
    fun hlt => ?_, fun heq => ?_⟩
  · unfold n_frames
    rw [Nat.sub_eq_zero_of_le (le_of_lt hlt), Nat.zero_div]
  · unfold n_frames
    rw [heq, Nat.sub_self, Nat.zero_div]

/-- Witness for C1 (amended) at a length-3 signal, `n_fft = 4`, `hop = 1`,
`win_length = 2`. -/
theorem c1_frame_count_witness :
    (par_compute_spectrogram (List.replicate 3 (0 : ℝ)) 4 1 2 false
        SpectrogramType.Magnitude).length = n_freq_bins 4 ∧
    (∀ row ∈ par_compute_spectrogram (List.replicate 3 (0 : ℝ)) 4 1 2 false
        SpectrogramType.Magnitude,
      row.length = n_frames (List.replicate 3 (0 : ℝ)).length 2 1) ∧
    (2 ≤ (List.replicate 3 (0 : ℝ)).length →
      n_frames (List.replicate 3 (0 : ℝ)).length 2 1
        = ((List.replicate 3 (0 : ℝ)).length - 2) / 1 + 1) ∧
    ((List.replicate 3 (0 : ℝ)).length < 2 →
      n_frames (List.replicate 3 (0 : ℝ)).length 2 1 = 1) ∧
    ((List.replicate 3 (0 : ℝ)).length = 2 →
      n_frames (List.replicate 3 (0 : ℝ)).length 2 1 = 1) :=
  c1_frame_count (List.replicate 3 (0 : ℝ)) 4 1 2 false SpectrogramType.Magnitude (by norm_num)

/-! ### C2: the engine performs no configuration validation -/

/-- Counterexample to C2 as stated: with the invalid configuration
`win_length = 8 > n_fft = 4` (and `center = false`), the engine does not reject
or fail — it computes and returns a fully-shaped `3 × 1` matrix. -/
theorem c2_counterexample :
    (par_compute_spectrogram (List.replicate 8 (1 : ℝ)) 4 1 8 false
        SpectrogramType.Magnitude).length = 3 ∧
    ∀ row ∈ par_compute_spectrogram (List.replicate 8 (1 : ℝ)) 4 1 8 false
        SpectrogramType.Magnitude, row.length = 1 := by
  constructor
  · simp [par_compute_spectrogram, n_freq_bins]
  · intro row hrow
    simp only [par_compute_spectrogram, List.mem_map, List.mem_range] at hrow
    obtain ⟨f, _, rfl⟩ := hrow
    simp [n_frames]

/-- C2 (amended): `par_compute_spectrogram` performs no configuration
validation and has no error path: even for the invalid configuration
`win_length > n_fft` (with `center = false`; `center = true` instead underflows
the offset subtraction in Rust) it silently computes a fully-shaped
`(n_fft/2 + 1) × n_frames` matrix, truncating the window to the first `n_fft`
weights, rather than failing fast with a configuration error. -/
theorem c2_no_validation (audio : List ℝ) (n_samples hop_length win_length : ℕ)
    (ty : SpectrogramType) (hH : 1 ≤ hop_length) (hW : n_samples < win_length) :
    (par_compute_spectrogram audio n_samples hop_length win_length false ty).length
      = n_freq_bins n_samples ∧
    ∀ row ∈ par_compute_spectrogram audio n_samples hop_length win_length false ty,
      row.length = n_frames audio.length win_length hop_length :=
  par_compute_shape audio n_samples hop_length win_length false ty

/-- Witness for C2 (amended) at `n_fft = 4 < win_length = 8`. -/
theorem c2_no_validation_witness :
    (par_compute_spectrogram (List.replicate 8 (1 : ℝ)) 4 1 8 false
        SpectrogramType.Power).length = n_freq_bins 4 ∧
    ∀ row ∈ par_compute_spectrogram (List.replicate 8 (1 : ℝ)) 4 1 8 false
        SpectrogramType.Power,
      row.length = n_frames (List.replicate 8 (1 : ℝ)).length 8 1 :=
  c2_no_validation (List.replicate 8 (1 : ℝ)) 4 1 8 SpectrogramType.Power
    (by norm_num) (by norm_num)

/-! ### Mel filter bank: entry extraction -/

theorem getD_map_of_lt {α β : Type*} (g : α → β) (l : List α) (i : ℕ) (d : β) (d' : α)
    (h : i < l.length) :
    (l.map g).getD i d = g (l.getD i d') := by
  rw [List.getD_eq_getElem _ _ (by simpa using h), List.getElem_map,
    List.getD_eq_getElem _ _ h]

theorem getD_zipWith_of_lt (g : ℝ → ℝ → ℝ) (as bs : List ℝ) (j : ℕ)
    (ha : j < as.length) (hb : j < bs.length) :
    (List.zipWith g as bs).getD j 0 = g (as.getD j 0) (bs.getD j 0) := by
  have hz : j < (List.zipWith g as bs).length := by
    rw [List.length_zipWith]
    omega
  rw [List.getD_eq_getElem _ _ hz, List.getElem_zipWith,
    List.getD_eq_getElem _ _ ha, List.getD_eq_getElem _ _ hb]

theorem getD_diff_of_lt (M : List ℝ) (k : ℕ) (h : k + 1 < M.length) :
    (List.zipWith (fun a b => b - a) M M.tail).getD k 0 =
      M.getD (k + 1) 0 - M.getD k 0 := by
  have h1 : k < M.length := by omega
  have hz : k < (List.zipWith (fun (a b : ℝ) => b - a) M M.tail).length := by
    rw [List.length_zipWith, List.length_tail]
    omega
  rw [List.getD_eq_getElem _ _ hz, List.getElem_zipWith, List.getElem_tail,
    List.getD_eq_getElem _ _ h, List.getD_eq_getElem _ _ h1]

theorem bank_mel_freqs_length (sr : ℕ) (n_mels : ℕ) (f_min f_max : Option ℝ)
    (s : MelScale) :
    (bank_mel_freqs sr n_mels f_min f_max s).length = n_mels + 2 := by
  simp [bank_mel_freqs, create_mel_frequencies]

/-- Closed form of every filter-bank entry: for `i < n_mels`, `j < n_fft/2 + 1`,
`weights[i][j] = max(0, min(lower, upper)) * (2 / (mel_freqs[i+2] - mel_freqs[i]))`. -/
theorem mel_filter_bank_entry (s : MelScale) (sr n_fft n_mels : ℕ)
    (f_min f_max : Option ℝ) (i j : ℕ) (hi : i < n_mels) (hj : j < n_fft / 2 + 1) :
    ((create_mel_filter_bank sr n_fft n_mels f_min f_max s).getD i []).getD j 0 =
      max 0 (min
          (-((bank_mel_freqs sr n_mels f_min f_max s).getD i 0 - fft_freq sr n_fft j) /
            ((bank_mel_freqs sr n_mels f_min f_max s).getD (i + 1) 0 -
              (bank_mel_freqs sr n_mels f_min f_max s).getD i 0))
          (((bank_mel_freqs sr n_mels f_min f_max s).getD (i + 2) 0 - fft_freq sr n_fft j) /
            ((bank_mel_freqs sr n_mels f_min f_max s).getD (i + 2) 0 -
              (bank_mel_freqs sr n_mels f_min f_max s).getD (i + 1) 0))) *
        (2 / ((bank_mel_freqs sr n_mels f_min f_max s).getD (i + 2) 0 -
          (bank_mel_freqs sr n_mels f_min f_max s).getD i 0)) := by
  have hlenM : (create_mel_frequencies (f_min.getD 0) (f_max.getD ((sr : ℝ) / 2))
      (n_mels + 2) s).length = n_mels + 2 := by
    simp [create_mel_frequencies]
  have hlenF : ((List.range (n_fft / 2 + 1)).map
      (fun (i : ℕ) => (i : ℝ) * (sr : ℝ) / (n_fft : ℝ))).length = n_fft / 2 + 1 := by
    simp
  simp only [create_mel_filter_bank, bank_mel_freqs]
  rw [getD_range_map _ _ _ _ hi, getD_range_map _ _ _ _ hi, getD_range_map _ _ _ _ hi]
  rw [getD_map_of_lt _ (create_mel_frequencies (f_min.getD 0) (f_max.getD ((sr : ℝ) / 2))
        (n_mels + 2) s) i _ 0 (by rw [hlenM]; omega),
    getD_map_of_lt _ (create_mel_frequencies (f_min.getD 0) (f_max.getD ((sr : ℝ) / 2))
        (n_mels + 2) s) (i + 2) _ 0 (by rw [hlenM]; omega)]
  rw [getD_diff_of_lt (create_mel_frequencies (f_min.getD 0) (f_max.getD ((sr : ℝ) / 2))
        (n_mels + 2) s) i (by rw [hlenM]; omega),
    getD_diff_of_lt (create_mel_frequencies (f_min.getD 0) (f_max.getD ((sr : ℝ) / 2))
        (n_mels + 2) s) (i + 1) (by rw [hlenM]; omega)]
  rw [List.getD_eq_getElem _ _ (by
    simp only [List.length_map, List.length_zipWith, List.length_range]
    omega)]
  simp only [List.getElem_map, List.getElem_zipWith, List.getElem_range, fft_freq]

/-! ### C4: Slaney-style normalization is applied for every mel scale -/

/-- C4: for every mel-scale choice (`HTK` or `Slaney`) and every in-range
`(i, j)`, the filter-bank entry equals the Slaney-style energy normalization
factor `2 / (mel_freqs[i+2] - mel_freqs[i])` times the triangular weight
`max(0, min(lower, upper))` — the normalization is applied unconditionally,
regardless of which Hz→mel formula was selected. -/
theorem c4_slaney_norm_unconditional (s : MelScale) (sr n_fft n_mels : ℕ)
    (f_min f_max : Option ℝ) (i j : ℕ) (hi : i < n_mels) (hj : j < n_fft / 2 + 1) :
    ((create_mel_filter_bank sr n_fft n_mels f_min f_max s).getD i []).getD j 0 =
      (2 / ((bank_mel_freqs sr n_mels f_min f_max s).getD (i + 2) 0 -
          (bank_mel_freqs sr n_mels f_min f_max s).getD i 0)) *
        max 0 (min
          (-((bank_mel_freqs sr n_mels f_min f_max s).getD i 0 - fft_freq sr n_fft j) /
            ((bank_mel_freqs sr n_mels f_min f_max s).getD (i + 1) 0 -
              (bank_mel_freqs sr n_mels f_min f_max s).getD i 0))
          (((bank_mel_freqs sr n_mels f_min f_max s).getD (i + 2) 0 - fft_freq sr n_fft j) /
            ((bank_mel_freqs sr n_mels f_min f_max s).getD (i + 2) 0 -
              (bank_mel_freqs sr n_mels f_min f_max s).getD (i + 1) 0))) := by
  rw [mel_filter_bank_entry s sr n_fft n_mels f_min f_max i j hi hj, mul_comm]

/-- Witness for C4 at `sr = 8000`, `n_fft = 4`, `n_mels = 2`, default
frequency range, HTK scale, entry `(0, 1)`. -/
theorem c4_slaney_norm_unconditional_witness :
    ((create_mel_filter_bank 8000 4 2 none none MelScale.HTK).getD 0 []).getD 1 0 =
      (2 / ((bank_mel_freqs 8000 2 none none MelScale.HTK).getD (0 + 2) 0 -
          (bank_mel_freqs 8000 2 none none MelScale.HTK).getD 0 0)) *
        max 0 (min
          (-((bank_mel_freqs 8000 2 none none MelScale.HTK).getD 0 0 - fft_freq 8000 4 1) /
            ((bank_mel_freqs 8000 2 none none MelScale.HTK).getD (0 + 1) 0 -
              (bank_mel_freqs 8000 2 none none MelScale.HTK).getD 0 0))
          (((bank_mel_freqs 8000 2 none none MelScale.HTK).getD (0 + 2) 0 - fft_freq 8000 4 1) /
            ((bank_mel_freqs 8000 2 none none MelScale.HTK).getD (0 + 2) 0 -
              (bank_mel_freqs 8000 2 none none MelScale.HTK).getD (0 + 1) 0))) :=
  c4_slaney_norm_unconditional MelScale.HTK 8000 4 2 none none 0 1 (by norm_num) (by norm_num)

/-! ### Monotonicity of the mel conversions -/

theorem hz_to_mel_strict (s : MelScale) {a b : ℝ} (ha : 0 ≤ a) (hab : a < b) :
    hz_to_mel a s < hz_to_mel b s := by
  cases s with
  | HTK =>
      simp only [hz_to_mel]
      have hd : (0 : ℝ) ≤ a / 700 := div_nonneg ha (by norm_num)
      have h1 : (0 : ℝ) < 1 + a / 700 := by linarith
      have h2 : 1 + a / 700 < 1 + b / 700 := by
        have : a / 700 < b / 700 := by linarith
        linarith
      have hlog := Real.logb_lt_logb (by norm_num : (1 : ℝ) < 10) h1 h2
      linarith
  | Slaney =>
      simp only [hz_to_mel]
      by_cases hb1 : b < 1000
      · rw [if_pos (lt_trans hab hb1), if_pos hb1]
        linarith
      · push_neg at hb1
        rw [if_neg (not_lt.mpr hb1)]
        by_cases ha1 : a < 1000
        · rw [if_pos ha1]
          have hnn : 0 ≤ Real.logb 6.4 (b / 1000) :=
            Real.logb_nonneg (by norm_num)
              (by rw [le_div_iff₀ (by norm_num : (0 : ℝ) < 1000)]; linarith)
          linarith
        · push_neg at ha1
          rw [if_neg (not_lt.mpr ha1)]
          have hpos : (0 : ℝ) < a / 1000 :=
            div_pos (lt_of_lt_of_le (by norm_num) ha1) (by norm_num)
          have hlt : a / 1000 < b / 1000 := by linarith
          have := Real.logb_lt_logb (by norm_num : (1 : ℝ) < 6.4) hpos hlt
          linarith

theorem mel_to_hz_strict (s : MelScale) {a b : ℝ} (hab : a < b) :
    mel_to_hz a s < mel_to_hz b s := by
  cases s with
  | HTK =>
      simp only [mel_to_hz]
      have := Real.rpow_lt_rpow_of_exponent_lt (by norm_num : (1 : ℝ) < 10)
        (show a / 2595 < b / 2595 by linarith)
      linarith
  | Slaney =>
      simp only [mel_to_hz]
      by_cases hb1 : b < 15
      · rw [if_pos (lt_trans hab hb1), if_pos hb1]
        linarith
      · push_neg at hb1
        rw [if_neg (not_lt.mpr hb1)]
        by_cases ha1 : a < 15
        · rw [if_pos ha1]
          have h1 : (6.4 : ℝ) ^ (0 : ℝ) ≤ (6.4 : ℝ) ^ ((b - 15) / 27) :=
            Real.rpow_le_rpow_of_exponent_le (by norm_num) (by linarith)
          rw [Real.rpow_zero] at h1
          linarith
        · push_neg at ha1
          rw [if_neg (not_lt.mpr ha1)]
          have := Real.rpow_lt_rpow_of_exponent_lt (by norm_num : (1 : ℝ) < 6.4)
            (show (a - 15) / 27 < (b - 15) / 27 by linarith)
          linarith

theorem bank_mel_freqs_strict (sr n_mels : ℕ) (f_min f_max : Option ℝ) (s : MelScale)
    (hmin : 0 ≤ f_min.getD 0) (hrange : f_min.getD 0 < f_max.getD ((sr : ℝ) / 2))
    (k k' : ℕ) (hkk : k < k') (hk' : k' < n_mels + 2) :
    (bank_mel_freqs sr n_mels f_min f_max s).getD k 0 <
      (bank_mel_freqs sr n_mels f_min f_max s).getD k' 0 := by
  have hk : k < n_mels + 2 := lt_trans hkk hk'
  rw [bank_mel_freqs, create_mel_frequencies,
    getD_range_map _ _ _ _ hk, getD_range_map _ _ _ _ hk']
  apply mel_to_hz_strict
  have hmm : hz_to_mel (f_min.getD 0) s < hz_to_mel (f_max.getD ((sr : ℝ) / 2)) s :=
    hz_to_mel_strict s hmin hrange
  have hc : (0 : ℝ) < ((n_mels + 2 - 1 : ℕ) : ℝ) := by
    have : (0 : ℕ) < n_mels + 2 - 1 := by omega
    exact_mod_cast this
  have hkR : (k : ℝ) < (k' : ℝ) := by exact_mod_cast hkk
  have hnum : (hz_to_mel (f_max.getD ((sr : ℝ) / 2)) s - hz_to_mel (f_min.getD 0) s) * (k : ℝ) <
      (hz_to_mel (f_max.getD ((sr : ℝ) / 2)) s - hz_to_mel (f_min.getD 0) s) * (k' : ℝ) :=
    mul_lt_mul_of_pos_left hkR (by linarith)
  have hdiv : (hz_to_mel (f_max.getD ((sr : ℝ) / 2)) s - hz_to_mel (f_min.getD 0) s) * (k : ℝ) /
        ((n_mels + 2 - 1 : ℕ) : ℝ) <
      (hz_to_mel (f_max.getD ((sr : ℝ) / 2)) s - hz_to_mel (f_min.getD 0) s) * (k' : ℝ) /
        ((n_mels + 2 - 1 : ℕ) : ℝ) :=
    div_lt_div_of_pos_right hnum hc
  linarith

/-! ### C8: rows are non-negative with contiguous support -/

/-- A filter-bank entry is non-zero exactly when the FFT bin frequency lies
strictly inside the filter's mel band `(mel_freqs[i], mel_freqs[i+2])`. -/
theorem mel_filter_entry_ne_zero_iff (s : MelScale) (sr n_fft n_mels : ℕ)
    (f_min f_max : Option ℝ) (i j : ℕ) (hi : i < n_mels) (hj : j < n_fft / 2 + 1)
    (hmin : 0 ≤ f_min.getD 0) (hrange : f_min.getD 0 < f_max.getD ((sr : ℝ) / 2)) :
    ((create_mel_filter_bank sr n_fft n_mels f_min f_max s).getD i []).getD j 0 ≠ 0 ↔
      ((bank_mel_freqs sr n_mels f_min f_max s).getD i 0 < fft_freq sr n_fft j ∧
        fft_freq sr n_fft j < (bank_mel_freqs sr n_mels f_min f_max s).getD (i + 2) 0) := by
  have hA : (bank_mel_freqs sr n_mels f_min f_max s).getD i 0 <
      (bank_mel_freqs sr n_mels f_min f_max s).getD (i + 1) 0 :=
    bank_mel_freqs_strict sr n_mels f_min f_max s hmin hrange i (i + 1) (by omega) (by omega)
  have hB : (bank_mel_freqs sr n_mels f_min f_max s).getD (i + 1) 0 <
      (bank_mel_freqs sr n_mels f_min f_max s).getD (i + 2) 0 :=
    bank_mel_freqs_strict sr n_mels f_min f_max s hmin hrange (i + 1) (i + 2) (by omega) (by omega)
  rw [mel_filter_bank_entry s sr n_fft n_mels f_min f_max i j hi hj]
  constructor
  · intro hne
    have hmaxne : max 0 (min
        (-((bank_mel_freqs sr n_mels f_min f_max s).getD i 0 - fft_freq sr n_fft j) /
          ((bank_mel_freqs sr n_mels f_min f_max s).getD (i + 1) 0 -
            (bank_mel_freqs sr n_mels f_min f_max s).getD i 0))
        (((bank_mel_freqs sr n_mels f_min f_max s).getD (i + 2) 0 - fft_freq sr n_fft j) /
          ((bank_mel_freqs sr n_mels f_min f_max s).getD (i + 2) 0 -
            (bank_mel_freqs sr n_mels f_min f_max s).getD (i + 1) 0))) ≠ 0 := by
      intro h
      exact hne (by rw [h, zero_mul])
    have hminpos : 0 < min
        (-((bank_mel_freqs sr n_mels f_min f_max s).getD i 0 - fft_freq sr n_fft j) /
          ((bank_mel_freqs sr n_mels f_min f_max s).getD (i + 1) 0 -
            (bank_mel_freqs sr n_mels f_min f_max s).getD i 0))
        (((bank_mel_freqs sr n_mels f_min f_max s).getD (i + 2) 0 - fft_freq sr n_fft j) /
          ((bank_mel_freqs sr n_mels f_min f_max s).getD (i + 2) 0 -
            (bank_mel_freqs sr n_mels f_min f_max s).getD (i + 1) 0)) := by
      rcases le_or_lt (min
        (-((bank_mel_freqs sr n_mels f_min f_max s).getD i 0 - fft_freq sr n_fft j) /
          ((bank_mel_freqs sr n_mels f_min f_max s).getD (i + 1) 0 -
            (bank_mel_freqs sr n_mels f_min f_max s).getD i 0))
        (((bank_mel_freqs sr n_mels f_min f_max s).getD (i + 2) 0 - fft_freq sr n_fft j) /
          ((bank_mel_freqs sr n_mels f_min f_max s).getD (i + 2) 0 -
            (bank_mel_freqs sr n_mels f_min f_max s).getD (i + 1) 0))) 0 with hle | hpos
      · exact absurd (max_eq_left hle) hmaxne
      · exact hpos
    have hl := lt_of_lt_of_le hminpos (min_le_left _ _)
    have hu := lt_of_lt_of_le hminpos (min_le_right _ _)
    rw [neg_sub] at hl
    constructor
    · rcases div_pos_iff.mp hl with ⟨hnum, _⟩ | ⟨_, hden⟩
      · linarith
      · linarith
    · rcases div_pos_iff.mp hu with ⟨hnum, _⟩ | ⟨_, hden⟩
      · linarith
      · linarith
  · rintro ⟨hlo, hhi⟩
    have hd1 : (0 : ℝ) < (bank_mel_freqs sr n_mels f_min f_max s).getD (i + 1) 0 -
        (bank_mel_freqs sr n_mels f_min f_max s).getD i 0 := sub_pos.mpr hA
    have hd2 : (0 : ℝ) < (bank_mel_freqs sr n_mels f_min f_max s).getD (i + 2) 0 -
        (bank_mel_freqs sr n_mels f_min f_max s).getD (i + 1) 0 := sub_pos.mpr hB
    have hl : (0 : ℝ) <
        -((bank_mel_freqs sr n_mels f_min f_max s).getD i 0 - fft_freq sr n_fft j) /
          ((bank_mel_freqs sr n_mels f_min f_max s).getD (i + 1) 0 -
            (bank_mel_freqs sr n_mels f_min f_max s).getD i 0) := by
      rw [neg_sub]
      exact div_pos (sub_pos.mpr hlo) hd1
    have hu : (0 : ℝ) <
        ((bank_mel_freqs sr n_mels f_min f_max s).getD (i + 2) 0 - fft_freq sr n_fft j) /
          ((bank_mel_freqs sr n_mels f_min f_max s).getD (i + 2) 0 -
            (bank_mel_freqs sr n_mels f_min f_max s).getD (i + 1) 0) :=
      div_pos (sub_pos.mpr hhi) hd2
    have hminpos := lt_min hl hu
    rw [max_eq_right (le_of_lt hminpos)]
    have hfac : (0 : ℝ) < 2 / ((bank_mel_freqs sr n_mels f_min f_max s).getD (i + 2) 0 -
        (bank_mel_freqs sr n_mels f_min f_max s).getD i 0) :=
      div_pos (by norm_num) (by linarith)
    exact ne_of_gt (mul_pos hminpos hfac)

/-- The FFT bin frequencies are monotone in the bin index. -/
theorem fft_freq_mono (sr n_fft : ℕ) {a b : ℕ} (hab : a ≤ b) :
    fft_freq sr n_fft a ≤ fft_freq sr n_fft b := by
  unfold fft_freq
  rcases Nat.eq_zero_or_pos n_fft with h0 | hpos
  · simp [h0]
  · have hc : (0 : ℝ) < (n_fft : ℝ) := by exact_mod_cast hpos
    have hnum : (a : ℝ) * (sr : ℝ) ≤ (b : ℝ) * (sr : ℝ) :=
      mul_le_mul_of_nonneg_right (by exact_mod_cast hab) (by positivity)
    exact div_le_div_of_nonneg_right hnum (le_of_lt hc)

/-- C8: under `0 ≤ f_min < f_max` (with defaults resolved as in the source),
every filter-bank entry is non-negative, and each row's non-zero support is a
contiguous interval of frequency-bin indices. -/
theorem c8_rows_nonneg_contiguous (s : MelScale) (sr n_fft n_mels : ℕ)
    (f_min f_max : Option ℝ)
    (hmin : 0 ≤ f_min.getD 0) (hrange : f_min.getD 0 < f_max.getD ((sr : ℝ) / 2)) :
    (∀ i < n_mels, ∀ j < n_fft / 2 + 1,
      0 ≤ ((create_mel_filter_bank sr n_fft n_mels f_min f_max s).getD i []).getD j 0) ∧
    (∀ i < n_mels, ∀ j1 j2 j3 : ℕ, j1 ≤ j2 → j2 ≤ j3 → j3 < n_fft / 2 + 1 →
      ((create_mel_filter_bank sr n_fft n_mels f_min f_max s).getD i []).getD j1 0 ≠ 0 →
      ((create_mel_filter_bank sr n_fft n_mels f_min f_max s).getD i []).getD j3 0 ≠ 0 →
      ((create_mel_filter_bank sr n_fft n_mels f_min f_max s).getD i []).getD j2 0 ≠ 0) := by
  constructor
  · intro i hi j hj
    have hA : (bank_mel_freqs sr n_mels f_min f_max s).getD i 0 <
        (bank_mel_freqs sr n_mels f_min f_max s).getD (i + 1) 0 :=
      bank_mel_freqs_strict sr n_mels f_min f_max s hmin hrange i (i + 1) (by omega) (by omega)
    have hB : (bank_mel_freqs sr n_mels f_min f_max s).getD (i + 1) 0 <
        (bank_mel_freqs sr n_mels f_min f_max s).getD (i + 2) 0 :=
      bank_mel_freqs_strict sr n_mels f_min f_max s hmin hrange (i + 1) (i + 2) (by omega)
        (by omega)
    rw [mel_filter_bank_entry s sr n_fft n_mels f_min f_max i j hi hj]
    exact mul_nonneg (le_max_left _ _) (div_nonneg (by norm_num) (by linarith))
  · intro i hi j1 j2 j3 h12 h23 h3 hne1 hne3
    have hj1 : j1 < n_fft / 2 + 1 := by omega
    have hj2 : j2 < n_fft / 2 + 1 := by omega
    obtain ⟨hlo1, _⟩ :=
      (mel_filter_entry_ne_zero_iff s sr n_fft n_mels f_min f_max i j1 hi hj1 hmin hrange).mp hne1
    obtain ⟨_, hhi3⟩ :=
      (mel_filter_entry_ne_zero_iff s sr n_fft n_mels f_min f_max i j3 hi h3 hmin hrange).mp hne3
    exact (mel_filter_entry_ne_zero_iff s sr n_fft n_mels f_min f_max i j2 hi hj2 hmin
      hrange).mpr
      ⟨lt_of_lt_of_le hlo1 (fft_freq_mono sr n_fft h12),
        lt_of_le_of_lt (fft_freq_mono sr n_fft h23) hhi3⟩

/-- Witness for C8 at `sr = 8000`, `n_fft = 4`, `n_mels = 2`, default
frequency range, Slaney scale. -/
theorem c8_rows_nonneg_contiguous_witness :
    (∀ i < 2, ∀ j < 4 / 2 + 1,
      0 ≤ ((create_mel_filter_bank 8000 4 2 none none MelScale.Slaney).getD i []).getD j 0) ∧
    (∀ i < 2, ∀ j1 j2 j3 : ℕ, j1 ≤ j2 → j2 ≤ j3 → j3 < 4 / 2 + 1 →
      ((create_mel_filter_bank 8000 4 2 none none MelScale.Slaney).getD i []).getD j1 0 ≠ 0 →
      ((create_mel_filter_bank 8000 4 2 none none MelScale.Slaney).getD i []).getD j3 0 ≠ 0 →
      ((create_mel_filter_bank 8000 4 2 none none MelScale.Slaney).getD i []).getD j2 0 ≠ 0) :=
  c8_rows_nonneg_contiguous MelScale.Slaney 8000 4 2 none none (by simp) (by simp)

/-! ### C10: `convert_to_mel` panics on an empty spectrogram -/

/-- C10: `convert_to_mel` unconditionally reads `spectrogram[0]`: on an empty
(zero-row) spectrogram it panics (modelled as `none`) instead of returning a
result, and it is total on every non-empty rectangular spectrogram (all rows of
equal length), in particular on every output of the spectrogram engine. -/
theorem c10_convert_to_mel_totality (sr n_fft n_mels : ℕ) (f_min f_max : Option ℝ)
    (s : MelScale) (spect : List (List ℝ)) (w : ℕ) :
    convert_to_mel [] sr n_fft n_mels f_min f_max s = none ∧
    (spect ≠ [] → (∀ row ∈ spect, row.length = w) →
      (convert_to_mel spect sr n_fft n_mels f_min f_max s).isSome) := by
  constructor
  · rfl
  · intro hne hrect
    obtain ⟨r0, rest, rfl⟩ := List.exists_cons_of_ne_nil hne
    simp only [convert_to_mel, List.head?_cons]
    rw [if_neg]
    · simp
    · rintro ⟨-, -, h3⟩
      apply h3
      intro row hrow
      have hmem : row ∈ r0 :: rest := (List.take_sublist _ _).mem hrow
      rw [hrect r0 (List.mem_cons_self _ _), hrect row hmem]

/-- Witness for C10: `none` on the empty spectrogram, `some` on a one-row
spectrogram. -/
theorem c10_convert_to_mel_totality_witness :
    convert_to_mel [] 8000 4 2 none none MelScale.HTK = none ∧
    (convert_to_mel [[(1 : ℝ), 2]] 8000 4 2 none none MelScale.HTK).isSome :=
  ⟨(c10_convert_to_mel_totality 8000 4 2 none none MelScale.HTK [[(1 : ℝ), 2]] 2).1,
    (c10_convert_to_mel_totality 8000 4 2 none none MelScale.HTK [[(1 : ℝ), 2]] 2).2
      (by simp) (by simp)⟩

end Spectrs
